import Mathlib

/-
Verification of the resize-images program (src/resize-images.go).

The embedding below translates the program and the pieces of the Go standard
library it relies on (strings.FieldsFunc, strconv.ParseInt, strings.Replace,
path/filepath Base/Ext/Clean/Join/Match) into executable Lean definitions.
Strings are treated as their rune sequences (List Char), matching Go's
rune-level processing in these functions.  Machine integers from
strconv.ParseInt (bitSize 0 = 64-bit int) are modelled as Int with the
explicit two's-complement bounds checked where the Go code checks them.
The concurrent pipeline (readImages / resizeImages / resizeImage and the
channel plumbing in main) is embedded twice: as a sequential denotation of
the files it opens and creates (used by the functional claims), and as a
small-step transition system over the goroutine/channel state (used by the
temporal claim).
-/

namespace ResizeImages

/-- Split a rune list at every occurrence of the separator, keeping empty
pieces.  This is the splitting underlying both strings.FieldsFunc (which then
drops the empty pieces) and the element-wise processing of path/filepath's
Clean. -/
def splitOn (sep : Char) : List Char → List (List Char)
  | [] => [[]]
  | c :: cs =>
    if c = sep then [] :: splitOn sep cs
    else
      match splitOn sep cs with
      | [] => [[c]]
      | t :: ts => (c :: t) :: ts

/-- Go strings.FieldsFunc(s, isComma) from parseSizes: the comma-separated
fields of the string with empty fields dropped. -/
def fieldsComma (s : String) : List (List Char) :=
  (splitOn ',' s.data).filter (fun t => t ≠ [])

/-- The scan underlying Go strings.Replace(s, old, "", -1): runes are
consumed one at a time; when `old` (non-empty) is a prefix of the remaining
input, that occurrence is dropped by consuming its first rune now and
skipping the remaining old.length - 1 runes through the skip counter, so
occurrences are removed non-overlapping, left to right.  While skipping, no
new match is attempted, exactly as Go resumes after the replaced
occurrence. -/
def removeAllSkip (old : List Char) : List Char → Nat → List Char
  | [], _ => []
  | c :: cs, skip =>
    match skip with
    | k + 1 => removeAllSkip old cs k
    | 0 =>
      if old.isPrefixOf (c :: cs) = true ∧ old ≠ [] then
        removeAllSkip old cs (old.length - 1)
      else c :: removeAllSkip old cs 0

/-- Go strings.Replace(s, old, "", -1): remove every non-overlapping
occurrence of `old` from the list, scanning left to right.  When `old` is
empty, Go inserts the (empty) replacement between runes, leaving the string
unchanged, which is also what the scan does. -/
def removeAll (old l : List Char) : List Char :=
  removeAllSkip old l 0

/-- Trailing path separators, as stripped by Go filepath.Base. -/
def dropTrailingSep (l : List Char) : List Char :=
  (l.reverse.dropWhile (fun c => c = '/')).reverse

/-- The last path element of a separator-stripped path. -/
def lastComponent (l : List Char) : List Char :=
  (l.reverse.takeWhile (fun c => c ≠ '/')).reverse

/-- Go filepath.Base (unix): "." for the empty path, trailing slashes
stripped, the part after the last slash; "/" when the path is all slashes. -/
def baseName (p : String) : String :=
  if p = "" then "."
  else
    let l := dropTrailingSep p.data
    if l = [] then "/"
    else String.mk (lastComponent l)

/-- Scan a reversed path for Go filepath.Ext: collect runes until the first
dot (returning the dot and everything after it, in order) and give up at a
path separator or at the start of the string. -/
def extFromRev : List Char → List Char → List Char
  | [], _ => []
  | c :: rest, acc =>
    if c = '/' then []
    else if c = '.' then c :: acc
    else extFromRev rest (c :: acc)

/-- Go filepath.Ext: the suffix beginning at the final dot of the final path
element, empty when there is no dot. -/
def fileExt (p : String) : String :=
  String.mk (extFromRev p.data.reverse [])

/-- The `name` field readImage stores in imageData:
strings.Replace(filepath.Base(path), filepath.Ext(path), "", -1).  Note the
count of -1: every occurrence of the extension substring is removed, not just
the trailing one. -/
def imageBaseName (p : String) : String :=
  String.mk (removeAll (fileExt p).data (baseName p).data)

/-- Modelled from the spec: the spec describes baseName as the source
filename with its (single, trailing) extension stripped.  This definition
follows those words; it is compared against `imageBaseName`, the code's
behaviour, when settling the claim about base names. -/
def specBaseName (p : String) : String :=
  String.mk ((baseName p).data.take ((baseName p).data.length - (fileExt p).data.length))

/-- One element-processing step of Go filepath.Clean: empty and "."
elements vanish; ".." pops the previous element unless there is none (kept
for relative paths, dropped at the root) or it is itself a ".."; other
elements are pushed.  The accumulator is the cleaned element stack in
reverse. -/
def cleanPush (rooted : Bool) (acc : List (List Char)) (e : List Char) : List (List Char) :=
  if e = [] ∨ e = ['.'] then acc
  else if e = ['.', '.'] then
    match acc with
    | [] => if rooted then [] else [['.', '.']]
    | a :: rest => if a = ['.', '.'] then e :: acc else rest
  else e :: acc

/-- Interleave path elements with the separator (strings.Join with "/"). -/
def joinSlash : List (List Char) → List Char
  | [] => []
  | [e] => e
  | e :: rest => e ++ '/' :: joinSlash rest

/-- Go filepath.Clean (unix): "." for the empty path, otherwise the
element stack produced by `cleanPush`, re-joined, with the leading slash of a
rooted path preserved and "." for a relative path that cleans to nothing. -/
def cleanPath (p : String) : String :=
  if p = "" then "."
  else
    let rooted := p.data.head? = some '/'
    let elems := (splitOn '/' p.data).foldl (cleanPush rooted) []
    let body := joinSlash elems.reverse
    if rooted then String.mk ('/' :: body)
    else if body = [] then "." else String.mk body

/-- Go filepath.Join of two parts: empty parts are skipped, the rest joined
with a slash and cleaned; all-empty input gives the empty string. -/
def joinPath (a b : String) : String :=
  if a = "" ∧ b = "" then ""
  else if a = "" then cleanPath b
  else if b = "" then cleanPath a
  else cleanPath (a ++ "/" ++ b)

/-- A literal pattern chunk of Go filepath.Match: it matches exactly when
the name equals the chunk rune for rune. -/
def matchLit : List Char → List Char → Bool
  | [], [] => true
  | [], _ :: _ => false
  | _ :: _, [] => false
  | p :: ps, c :: cs => p = c && matchLit ps cs

/-- A '*' followed by a literal chunk ending the pattern, as in Go
filepath.Match: the star consumes any (possibly empty) run of non-separator
runes, backtracking rune by rune, and the rest of the name must then equal
the chunk. -/
def matchStarThen (lit : List Char) : List Char → Bool
  | [] => matchLit lit []
  | c :: cs => matchLit lit (c :: cs) || (!(c = '/') && matchStarThen lit cs)

/-- Go filepath.Match restricted to the shapes the program's only pattern
"*.jpg" uses: a literal chunk, optionally preceded by one '*'.  The pattern
contains no '?', character class or escape, so those branches of Go's
matcher are not modelled. -/
def matchGlob (pat n : List Char) : Bool :=
  match pat with
  | '*' :: lit => matchStarThen lit n
  | lit => matchLit lit n

/-- The runes of the ".jpg" suffix the glob pattern requires. -/
def jpgExt : List Char := ['.', 'j', 'p', 'g']

/-- The literal glob pattern main passes to filepath.Glob (the final
element of filepath.Join(fromPath, "*.jpg")). -/
def jpgPattern : List Char := '*' :: jpgExt

/-- The value a run of decimal digit runes denotes, most significant first.
Used to reason about the decimal renderings fmt's %d verb produces. -/
def decimalVal (l : List Char) : Nat :=
  l.foldl (fun a c => a * 10 + (c.toNat - 48)) 0

/-- The two error kinds strconv.ParseInt can report (ErrSyntax and
ErrRange), which parseSizes distinguishes through the NumError it unwraps. -/
inductive NumErr where
  | invalid
  | outOfRange
deriving DecidableEq, Repr

/-- Read a run of decimal digits into a value, failing at the first
non-digit rune. -/
def digitsRead : List Char → Nat → Option Nat
  | [], acc => some acc
  | c :: cs, acc => if c.isDigit then digitsRead cs (acc * 10 + (c.toNat - 48)) else none

/-- Go strconv.ParseInt(t, 10, 0): an optional sign followed by at least one
decimal digit; bitSize 0 means the platform int, 64 bits, so values outside
the signed 64-bit range report ErrRange. -/
def parseInt64 (t : List Char) : Except NumErr Int :=
  match t with
  | '-' :: rest => parseIntBody true rest
  | '+' :: rest => parseIntBody false rest
  | _ => parseIntBody false t
where
  parseIntBody (neg : Bool) (ds : List Char) : Except NumErr Int :=
    if ds = [] then .error .invalid
    else
      match digitsRead ds 0 with
      | none => .error .invalid
      | some n =>
        let v : Int := if neg then -(n : Int) else (n : Int)
        if v < -(2 ^ 63) ∨ (2 ^ 63 - 1 : Int) < v then .error .outOfRange
        else .ok v

/-- The three errors parseSizes can return, mirroring its three switch
cases (syntax error, range error, negative size). -/
inductive SizeErr where
  | notValid
  | rangeExceeded
  | negative (i : Int)
deriving DecidableEq, Repr

/-- The loop body of parseSizes over the comma-separated fields: the first
field that fails ParseInt or parses negative aborts with the matching error;
otherwise the parsed values are collected in field order. -/
def parseTokens : List (List Char) → Except SizeErr (List Int)
  | [] => .ok []
  | t :: ts =>
    match parseInt64 t with
    | .error .invalid => .error .notValid
    | .error .outOfRange => .error .rangeExceeded
    | .ok i =>
      if i < 0 then .error (.negative i)
      else
        match parseTokens ts with
        | .error e => .error e
        | .ok l => .ok (i :: l)

/-- Go parseSizes: strings.FieldsFunc on commas, then the per-field
ParseInt/negativity checks. -/
def parseSizes (s : String) : Except SizeErr (List Int) :=
  parseTokens (fieldsComma s)

/-- The outcomes of the fallible operations the concurrent tasks perform,
one oracle per operation: whether a source file opens and decodes, whether a
destination file can be created, and whether the JPEG encode succeeds. -/
structure TaskOracles where
  decodeOk : String → Bool
  createOk : String → Bool
  encodeOk : String → Bool

/-- The file name resizeImage builds with fmt.Sprintf("%s_%d.jpg", name,
size). -/
def outputFileName (base : String) (size : Int) : String :=
  base ++ "_" ++ Int.repr size ++ ".jpg"

/-- The destination path resizeImage creates: filepath.Join(basePath,
fmt.Sprintf("%s_%d.jpg", name, size)). -/
def outputPath (toPath base : String) (size : Int) : String :=
  joinPath toPath (outputFileName base size)

/-- The imageData values readImage sends on the images channel: one per
source path whose open and decode succeed, carrying the path and the derived
name. -/
def loadedImages (o : TaskOracles) (files : List String) : List (String × String) :=
  files.filterMap (fun p => if o.decodeOk p then some (p, imageBaseName p) else none)

/-- The names of the files the pipeline leaves in the destination
directory: one per (decoded image, size) pair whose os.Create succeeded
(os.Create makes the file even when the later encode fails, and a failed
create makes none). -/
def pipelineNames (o : TaskOracles) (toPath : String) (files : List String) (sizes : List Int) :
    List String :=
  (loadedImages o files).flatMap (fun im =>
    (sizes.filter (fun s => o.createOk (outputPath toPath im.2 s))).map
      (fun s => outputFileName im.2 s))

/-- The outcome of the os.Stat call in validateDirectory: the path does not
exist, stat failed some other way, or it exists with the given
directory-ness. -/
inductive StatRes where
  | notExist
  | statErr
  | found (isDir : Bool)
deriving DecidableEq, Repr

/-- The fatal errors main can stop on before the pipeline starts, one per
log.Fatal site. -/
inductive Fatal where
  | dirMissing
  | notADirectory
  | statFailed
  | mkdirFailed
  | parseFailed (e : SizeErr)
  | noSizes
  | globFailed
  | noImages
deriving DecidableEq, Repr

/-- Go validateDirectory(path, mustExist): a missing path is an error only
when it must exist, any other stat failure is an error, and an existing
non-directory is an error. -/
def validateDirectory : StatRes → Bool → Option Fatal
  | .notExist, mustExist => if mustExist then some .dirMissing else none
  | .statErr, _ => some .statFailed
  | .found d, _ => if d then none else some .notADirectory

/-- Go try(errs...): log.Fatal on the first non-nil error.  All argument
expressions were already evaluated by the caller, as Go evaluates arguments
before the call. -/
def tryErrs : List (Option Fatal) → Option Fatal
  | [] => none
  | none :: rest => tryErrs rest
  | some e :: _ => some e

/-- One invocation's environment: the stat outcomes for the two directory
flags, whether MkdirAll fails, the -s argument, whether the glob pattern
built from -f is well-formed (filepath.Glob's only error), the names the
source tree holds (entries of subdirectories written with a slash), the two
directory paths, and the per-task oracles. -/
structure World where
  fromStat : StatRes
  toStat : StatRes
  mkdirFails : Bool
  sizesArg : String
  globPatternOk : Bool
  sourceEntries : List String
  fromPath : String
  toPath : String
  ora : TaskOracles

/-- The first fatal error of main's try(validateDirectory(fromPath, true),
validateDirectory(toPath, false), os.MkdirAll(toPath, 0755)). -/
def dirErrs (w : World) : Option Fatal :=
  tryErrs [validateDirectory w.fromStat true, validateDirectory w.toStat false,
    if w.mkdirFails then some Fatal.mkdirFailed else none]

/-- The source names filepath.Glob(filepath.Join(fromPath, "*.jpg"))
selects: the entries matching the pattern's final element.  An entry in a
subdirectory (holding a slash) never matches, as '*' does not cross
separators. -/
def sourceMatches (w : World) : List String :=
  w.sourceEntries.filter (fun n => matchGlob jpgPattern n.data)

/-- The paths Glob returns: each matching name under the source directory. -/
def globFiles (w : World) : List String :=
  (sourceMatches w).map (fun n => joinPath w.fromPath n)

/-- The validation prefix of main, up to the point where the pipeline is
started: directory checks, parseSizes, the empty-size check, Glob, and the
empty-file-list check, each aborting with its own fatal error. -/
def configPhase (w : World) : Except Fatal (List Int × List String) :=
  match dirErrs w with
  | some e => .error e
  | none =>
    match parseSizes w.sizesArg with
    | .error e => .error (.parseFailed e)
    | .ok sizes =>
      if sizes.length ≤ 0 then .error .noSizes
      else if w.globPatternOk = false then .error .globFailed
      else if (globFiles w).length ≤ 0 then .error .noImages
      else .ok (sizes, globFiles w)

/-- The observable file-system effects of a run: the three directory
operations main's try arguments perform, the directory listing Glob does,
and the per-task opens and creates. -/
inductive Eff where
  | statFromDir
  | statToDir
  | mkdirToDir
  | globSources
  | openSource (p : String)
  | createOutput (p : String)
deriving DecidableEq, Repr

/-- The effects performed before main's try is decided: both stats and the
MkdirAll, which Go evaluates as arguments of try before any of them is
checked. -/
def configEffects : List Eff :=
  [Eff.statFromDir, Eff.statToDir, Eff.mkdirToDir]

/-- The file effects of the pipeline itself: every source path is opened
(readImage), and every (decoded image, size) pair gets an os.Create at its
output path (resizeImage). -/
def pipelineEffects (o : TaskOracles) (toPath : String) (files : List String) (sizes : List Int) :
    List Eff :=
  files.map (fun p => Eff.openSource p) ++
    (loadedImages o files).flatMap (fun im =>
      sizes.map (fun s => Eff.createOutput (outputPath toPath im.2 s)))

/-- A whole run of main: the process exit status (log.Fatal exits 1; after
the pipeline's completion signal main returns and the process exits 0) and
the file effects performed, in program order. -/
def mainRun (w : World) : Nat × List Eff :=
  match dirErrs w with
  | some _ => (1, configEffects)
  | none =>
    match parseSizes w.sizesArg with
    | .error _ => (1, configEffects)
    | .ok sizes =>
      if sizes.length ≤ 0 then (1, configEffects)
      else if w.globPatternOk = false then (1, configEffects ++ [Eff.globSources])
      else if (globFiles w).length ≤ 0 then (1, configEffects ++ [Eff.globSources])
      else (0, configEffects ++ [Eff.globSources] ++
        pipelineEffects w.ora w.toPath (globFiles w) sizes)

/-- Where one load goroutine (readImage) stands: not yet past its decode,
its image sent on the images channel but its finished signal not yet sent,
or its finished signal sent (the deferred send runs on both the failure and
the success path). -/
inductive LoadPhase where
  | pending
  | emitted
  | reported
deriving DecidableEq, Repr

/-- The joint state of the concurrent pipeline for nf source files and ns
sizes: each loader's phase, the images channel contents in FIFO order, the
channel-closed flag set by readImages, which images resizeImages has
received (spawning their ns resize goroutines), which resize tasks have sent
their finished signal, and whether the final allFinished send that main
blocks on has happened. -/
structure PipeState (nf ns : Nat) where
  load : Fin nf → LoadPhase
  chan : List (Fin nf)
  closed : Bool
  spawned : Fin nf → Bool
  taskDone : Fin nf → Fin ns → Bool
  final : Bool

/-- The pipeline state right after main spawns readImages and resizeImages:
nothing decoded, an empty open channel, nothing spawned or finished. -/
def startState (nf ns : Nat) : PipeState nf ns :=
  ⟨fun _ => LoadPhase.pending, [], false, fun _ => false, fun _ _ => false, false⟩

/-- One scheduler step of the pipeline, with dOk telling which source files
decode successfully.  emit is readImage's successful send on the images
channel; reportLoaded/reportFailed are its deferred finished send;
closeChan is readImages closing the channel after receiving one finished
signal per path; dispatch is resizeImages receiving one image and spawning
its per-size goroutines; taskFinish is one resize goroutine's deferred
finished send; finish is resizeImages sending allFinished after its range
loop ended (channel closed and drained) and all spawned tasks signalled. -/
inductive PipeStep {nf ns : Nat} (dOk : Fin nf → Bool) :
    PipeState nf ns → PipeState nf ns → Prop where
  | emit (s : PipeState nf ns) (i : Fin nf) (h1 : s.load i = LoadPhase.pending)
      (h2 : dOk i = true) :
      PipeStep dOk s
        { s with load := Function.update s.load i LoadPhase.emitted, chan := s.chan ++ [i] }
  | reportLoaded (s : PipeState nf ns) (i : Fin nf) (h1 : s.load i = LoadPhase.emitted) :
      PipeStep dOk s { s with load := Function.update s.load i LoadPhase.reported }
  | reportFailed (s : PipeState nf ns) (i : Fin nf) (h1 : s.load i = LoadPhase.pending)
      (h2 : dOk i = false) :
      PipeStep dOk s { s with load := Function.update s.load i LoadPhase.reported }
  | closeChan (s : PipeState nf ns) (h1 : ∀ i, s.load i = LoadPhase.reported)
      (h2 : s.closed = false) :
      PipeStep dOk s { s with closed := true }
  | dispatch (s : PipeState nf ns) (i : Fin nf) (rest : List (Fin nf)) (h1 : s.chan = i :: rest) :
      PipeStep dOk s { s with chan := rest, spawned := Function.update s.spawned i true }
  | taskFinish (s : PipeState nf ns) (i : Fin nf) (j : Fin ns) (h1 : s.spawned i = true)
      (h2 : s.taskDone i j = false) :
      PipeStep dOk s
        { s with taskDone := fun a =>
            if a = i then Function.update (s.taskDone i) j true else s.taskDone a }
  | finish (s : PipeState nf ns) (h1 : s.closed = true) (h2 : s.chan = [])
      (h3 : ∀ i j, s.spawned i = true → s.taskDone i j = true) (h4 : s.final = false) :
      PipeStep dOk s { s with final := true }

/-- The states one run of the pipeline can pass through. -/
def Reachable {nf ns : Nat} (dOk : Fin nf → Bool) (s : PipeState nf ns) : Prop :=
  Relation.ReflTransGen (PipeStep dOk) (startState nf ns) s

/-- The inductive invariant of the pipeline: channel entries and spawned
images are past their decode and did decode; a closed channel means every
loader signalled finished; and once the final signal fired the channel was
closed and drained and every spawned resize task had signalled. -/
def PipeInv {nf ns : Nat} (dOk : Fin nf → Bool) (s : PipeState nf ns) : Prop :=
  (∀ i, i ∈ s.chan → s.load i ≠ LoadPhase.pending ∧ dOk i = true) ∧
  (∀ i, s.spawned i = true → s.load i ≠ LoadPhase.pending ∧ dOk i = true) ∧
  (s.closed = true → ∀ i, s.load i = LoadPhase.reported) ∧
  (s.final = true → s.closed = true ∧ s.chan = [] ∧
    ∀ i j, s.spawned i = true → s.taskDone i j = true)

/-- Oracles for runs where every task succeeds. -/
def oraAllOk : TaskOracles := ⟨fun _ => true, fun _ => true, fun _ => true⟩

/-- Oracles for runs where every decode, create and encode fails. -/
def oraAllFail : TaskOracles := ⟨fun _ => false, fun _ => false, fun _ => false⟩

/-- A world whose directories are fine but whose size list is the
unparsable "abc". -/
def wParseBad : World :=
  ⟨StatRes.found true, StatRes.found true, false, "abc", true, ["a.jpg"], "src", "out", oraAllOk⟩

/-- The same world with the negative size list "-5". -/
def wParseNeg : World := { wParseBad with sizesArg := "-5" }

/-- The same world with a size list of bare commas. -/
def wCommas : World := { wParseBad with sizesArg := ",,," }

/-- A fully valid world: good directories, sizes "50,100", one source
image. -/
def wGood : World := { wParseBad with sizesArg := "50,100" }

/-- The valid world with every concurrent task failing. -/
def wGoodFail : World := { wGood with ora := oraAllFail }

/-- The valid world with a source tree holding no directly "*.jpg"-matching
entry: a .jpeg file, an upper-case .JPG file, and a .jpg inside a
subdirectory. -/
def wNoJpg : World := { wGood with sourceEntries := ["a.jpeg", "A.JPG", "sub/a.jpg"] }

/-- A decode oracle for the demonstration run: of two source files, file 0
decodes and file 1 fails. -/
def demoOk : Fin 2 → Bool := fun i => decide (i = 0)

/-- The demonstration run, step by step: two source files, one size, one
successful decode and one failed one. -/
def demo0 : PipeState 2 1 := startState 2 1

/-- After readImage sends file 0's decoded image. -/
def demo1 : PipeState 2 1 :=
  { demo0 with load := Function.update demo0.load 0 LoadPhase.emitted, chan := demo0.chan ++ [0] }

/-- After file 0's deferred finished send. -/
def demo2 : PipeState 2 1 :=
  { demo1 with load := Function.update demo1.load 0 LoadPhase.reported }

/-- After file 1's decode fails and its deferred finished send runs. -/
def demo3 : PipeState 2 1 :=
  { demo2 with load := Function.update demo2.load 1 LoadPhase.reported }

/-- After readImages closes the channel. -/
def demo4 : PipeState 2 1 := { demo3 with closed := true }

/-- After resizeImages receives image 0 and spawns its resize task. -/
def demo5 : PipeState 2 1 :=
  { demo4 with chan := ([] : List (Fin 2)), spawned := Function.update demo4.spawned 0 true }

/-- After the resize task signals finished. -/
def demo6 : PipeState 2 1 :=
  { demo5 with taskDone := fun a =>
      if a = (0 : Fin 2) then Function.update (demo5.taskDone 0) (0 : Fin 1) true
      else demo5.taskDone a }

/-- After resizeImages sends allFinished. -/
def demo7 : PipeState 2 1 := { demo6 with final := true }

/-! ### Lemmas about the size-list parser -/

theorem parseTokens_mem (ts : List (List Char)) (l : List Int) (t : List Char)
    (h : parseTokens ts = Except.ok l) (hmem : t ∈ ts) :
    ∃ i, parseInt64 t = Except.ok i ∧ 0 ≤ i ∧ i ∈ l := by
  induction ts generalizing l with
  | nil => cases hmem
  | cons a ts ih =>
    cases hp : parseInt64 a with
    | error e => cases e <;> simp [parseTokens, hp] at h
    | ok i =>
      by_cases hi : i < 0
      · simp [parseTokens, hp, hi] at h
      · cases hr : parseTokens ts with
        | error e2 => simp [parseTokens, hp, hi, hr] at h
        | ok l2 =>
          simp only [parseTokens, hp, hi, if_false, hr] at h
          rw [Except.ok.injEq] at h
          subst h
          cases hmem with
          | head => exact ⟨i, hp, not_lt.1 hi, List.mem_cons_self _ _⟩
          | tail _ hm =>
            obtain ⟨i2, h1, h2, h3⟩ := ih l2 hr hm
            exact ⟨i2, h1, h2, List.mem_cons_of_mem _ h3⟩

theorem parseTokens_forall (ts : List (List Char)) (l : List Int)
    (h : parseTokens ts = Except.ok l) :
    List.Forall₂ (fun t i => parseInt64 t = Except.ok i ∧ 0 ≤ i) ts l := by
  induction ts generalizing l with
  | nil =>
    simp only [parseTokens, Except.ok.injEq] at h
    subst h
    exact List.Forall₂.nil
  | cons a ts ih =>
    cases hp : parseInt64 a with
    | error e => cases e <;> simp [parseTokens, hp] at h
    | ok i =>
      by_cases hi : i < 0
      · simp [parseTokens, hp, hi] at h
      · cases hr : parseTokens ts with
        | error e2 => simp [parseTokens, hp, hi, hr] at h
        | ok l2 =>
          simp only [parseTokens, hp, hi, if_false, hr] at h
          rw [Except.ok.injEq] at h
          subst h
          exact List.Forall₂.cons ⟨hp, not_lt.1 hi⟩ (ih l2 hr)

theorem parseTokens_error (ts : List (List Char)) (t : List Char) (hmem : t ∈ ts)
    (hbad : (∃ e, parseInt64 t = Except.error e) ∨ ∃ i, parseInt64 t = Except.ok i ∧ i < 0) :
    ∃ e2, parseTokens ts = Except.error e2 := by
  induction ts with
  | nil => cases hmem
  | cons a ts ih =>
    cases hp : parseInt64 a with
    | error e =>
      cases e with
      | invalid => exact ⟨SizeErr.notValid, by simp [parseTokens, hp]⟩
      | outOfRange => exact ⟨SizeErr.rangeExceeded, by simp [parseTokens, hp]⟩
    | ok i =>
      by_cases hi : i < 0
      · exact ⟨SizeErr.negative i, by simp [parseTokens, hp, hi]⟩
      · have hts : t ∈ ts := by
          cases hmem with
          | tail _ hm => exact hm
          | head =>
            exfalso
            rcases hbad with ⟨e, he⟩ | ⟨i2, hok, hneg⟩
            · rw [hp] at he
              exact Except.noConfusion he
            · rw [hp, Except.ok.injEq] at hok
              subst hok
              exact hi hneg
        obtain ⟨e2, he2⟩ := ih hts
        exact ⟨e2, by simp [parseTokens, hp, hi, he2]⟩

/-- The exit status of a run is decided entirely by the validation phase:
0 exactly when configPhase succeeds, 1 on any of its fatal errors. -/
theorem mainRun_fst (w : World) :
    (mainRun w).1 = (match configPhase w with | .ok _ => 0 | .error _ => 1) := by
  unfold mainRun configPhase
  cases dirErrs w with
  | some e => rfl
  | none =>
    cases parseSizes w.sizesArg with
    | error e => rfl
    | ok sizes =>
      by_cases h1 : sizes.length ≤ 0
      · simp [h1]
      · simp only [if_neg h1]
        by_cases h2 : w.globPatternOk = false
        · simp [h2]
        · simp only [if_neg h2]
          by_cases h3 : (globFiles w).length ≤ 0
          · simp [h3]
          · simp [h3]

/-! ### Claims about parsing and validation -/

/-- Claim C7, counterexample: the parser does not produce a duplicate-free
set.  The valid size list "50,50" parses successfully to [50, 50], in which
the target 50 appears twice. -/
theorem c7_counterexample :
    parseSizes "50,50" = Except.ok [50, 50] ∧ ¬ ([50, 50] : List Int).Nodup :=
  ⟨rfl, by decide⟩

/-- Claim C7 (amended): for every valid size-list string the parser
produces the list of parsed values in field order, one non-negative value
per comma field; repeated fields give repeated values, so the result is an
ordered list with possible duplicates, not a duplicate-free set. -/
theorem c7_parsed_values (s : String) (l : List Int) (h : parseSizes s = Except.ok l) :
    List.Forall₂ (fun t i => parseInt64 t = Except.ok i ∧ 0 ≤ i) (fieldsComma s) l :=
  parseTokens_forall _ _ h

/-- The amended C7 theorem applied at the concrete input "50,50". -/
theorem c7_parsed_values_witness :
    List.Forall₂ (fun t i => parseInt64 t = Except.ok i ∧ 0 ≤ i) (fieldsComma "50,50")
      [50, 50] :=
  c7_parsed_values "50,50" [50, 50] rfl

/-- Claim C8: the token "0" is accepted by the parser: ParseInt reads it as
0, which passes the non-negativity check, and every successful parse of a
size list containing the field "0" includes 0 among its targets. -/
theorem c8_zero_accepted (s : String) (l : List Int) (hmem : ['0'] ∈ fieldsComma s)
    (hok : parseSizes s = Except.ok l) :
    parseInt64 ['0'] = Except.ok 0 ∧ (0 : Int) ∈ l := by
  refine ⟨rfl, ?_⟩
  obtain ⟨i, hp, _, hi⟩ := parseTokens_mem _ _ _ hok hmem
  have h0 : (Except.ok (0 : Int) : Except NumErr Int) = Except.ok i :=
    (show parseInt64 ['0'] = Except.ok 0 from rfl).symm.trans hp
  obtain rfl := Except.ok.inj h0
  exact hi

/-- The C8 theorem applied at the concrete size list "5,0,10". -/
theorem c8_zero_accepted_witness :
    parseInt64 ['0'] = Except.ok 0 ∧ (0 : Int) ∈ ([5, 0, 10] : List Int) :=
  c8_zero_accepted "5,0,10" [5, 0, 10] (by decide) rfl

/-- Claim C9: FieldsFunc drops empty fields, so "5,,10," parses to [5, 10],
comma-only and empty strings parse to the empty list, no empty field ever
reaches the parsing loop, and a world whose -s argument is ",,," fails with
the no-sizes fatal error, not a parse error. -/
theorem c9_empty_fields (w : World) (hdirs : dirErrs w = none) (harg : w.sizesArg = ",,,") :
    parseSizes "5,,10," = Except.ok [5, 10] ∧
    parseSizes ",,," = Except.ok [] ∧
    parseSizes "" = Except.ok [] ∧
    (∀ s : String, ([] : List Char) ∉ fieldsComma s) ∧
    configPhase w = Except.error Fatal.noSizes := by
  refine ⟨rfl, rfl, rfl, ?_, ?_⟩
  · intro s hs
    have := List.of_mem_filter hs
    simp at this
  · unfold configPhase
    rw [hdirs, harg]
    rfl

/-- The C9 theorem applied at the concrete world whose -s argument is
",,,". -/
theorem c9_empty_fields_witness :
    parseSizes "5,,10," = Except.ok [5, 10] ∧
    parseSizes ",,," = Except.ok [] ∧
    parseSizes "" = Except.ok [] ∧
    (∀ s : String, ([] : List Char) ∉ fieldsComma s) ∧
    configPhase wCommas = Except.error Fatal.noSizes :=
  c9_empty_fields wCommas (by decide) rfl

/-- Claim C6: parseSizes fails whenever some comma field fails ParseInt or
parses to a negative value, and main exits non-zero both on a parse error
and on an empty parsed size list. -/
theorem c6_parse_failures_fatal (w : World) :
    ((∃ t ∈ fieldsComma w.sizesArg,
        (∃ e, parseInt64 t = Except.error e) ∨ ∃ i, parseInt64 t = Except.ok i ∧ i < 0) →
      ∃ e2, parseSizes w.sizesArg = Except.error e2) ∧
    ((∃ e2, parseSizes w.sizesArg = Except.error e2) → (mainRun w).1 ≠ 0) ∧
    (parseSizes w.sizesArg = Except.ok [] → (mainRun w).1 ≠ 0) := by
  refine ⟨?_, ?_, ?_⟩
  · rintro ⟨t, hmem, hbad⟩
    exact parseTokens_error _ _ hmem hbad
  · rintro ⟨e2, he⟩
    rw [mainRun_fst]
    unfold configPhase
    cases hd : dirErrs w with
    | some e3 => simp
    | none => rw [he]; simp
  · intro he
    rw [mainRun_fst]
    unfold configPhase
    cases hd : dirErrs w with
    | some e3 => simp
    | none => rw [he]; simp

/-- The C6 theorem applied at the concrete world whose -s argument is
"-5". -/
theorem c6_parse_failures_fatal_witness : (mainRun wParseNeg).1 ≠ 0 :=
  (c6_parse_failures_fatal wParseNeg).2.1 ⟨SizeErr.negative (-5), rfl⟩

/-- Claim C4: a malformed size list makes main log.Fatal with a non-zero
status after only the two directory stats and the MkdirAll that try's
already-evaluated arguments performed: the source file list is never
resolved (no Glob runs), and no source open or output create happens. -/
theorem c4_malformed_sizes_abort (w : World) (e : SizeErr)
    (h : parseSizes w.sizesArg = Except.error e) :
    (mainRun w).1 ≠ 0 ∧ (mainRun w).2 = configEffects ∧
    Eff.globSources ∉ (mainRun w).2 ∧
    (∀ p, Eff.openSource p ∉ (mainRun w).2) ∧
    (∀ q, Eff.createOutput q ∉ (mainRun w).2) := by
  have hm : mainRun w = (1, configEffects) := by
    unfold mainRun
    cases hd : dirErrs w with
    | some e3 => rfl
    | none => rw [h]
  rw [hm]
  exact ⟨by simp, rfl, by decide, fun p => by simp [configEffects], fun q => by
    simp [configEffects]⟩

/-- The C4 theorem applied at the two concrete malformed size lists the
claim names, "abc" and "-5". -/
theorem c4_malformed_sizes_abort_witness :
    ((mainRun wParseBad).1 ≠ 0 ∧ (mainRun wParseBad).2 = configEffects ∧
      Eff.globSources ∉ (mainRun wParseBad).2 ∧
      (∀ p, Eff.openSource p ∉ (mainRun wParseBad).2) ∧
      (∀ q, Eff.createOutput q ∉ (mainRun wParseBad).2)) ∧
    (mainRun wParseNeg).1 ≠ 0 :=
  ⟨c4_malformed_sizes_abort wParseBad SizeErr.notValid rfl,
    (c4_malformed_sizes_abort wParseNeg (SizeErr.negative (-5)) rfl).1⟩

/-- Claim C3: once configuration validation has passed, the exit status is
0, and it stays 0 whatever the task oracles report: no load, create or
encode failure reaches the coordinator or the exit status. -/
theorem c3_exit_zero (w : World) (sizes : List Int) (files : List String)
    (h : configPhase w = Except.ok (sizes, files)) :
    (mainRun w).1 = 0 ∧ ∀ o2 : TaskOracles, (mainRun { w with ora := o2 }).1 = 0 := by
  constructor
  · rw [mainRun_fst, h]
  · intro o2
    have hsame : configPhase { w with ora := o2 } = configPhase w := by
      cases w
      rfl
    rw [mainRun_fst, hsame, h]

/-- The C3 theorem applied at the concrete valid world in which every
decode, create and encode fails. -/
theorem c3_exit_zero_witness :
    (mainRun wGoodFail).1 = 0 ∧ ∀ o2 : TaskOracles, (mainRun { wGoodFail with ora := o2 }).1 = 0 :=
  c3_exit_zero wGoodFail [50, 100] ["src/a.jpg"] rfl

/-! ### The glob matcher -/

theorem matchLit_iff (lit l : List Char) : matchLit lit l = true ↔ lit = l := by
  induction lit generalizing l with
  | nil => cases l <;> simp [matchLit]
  | cons p ps ih =>
    cases l with
    | nil => simp [matchLit]
    | cons c cs => simp [matchLit, ih]

theorem matchStarThen_iff (l : List Char) :
    matchStarThen jpgExt l = true ↔ (jpgExt <:+ l ∧ ('/' : Char) ∉ l) := by
  induction l with
  | nil => decide
  | cons c cs ih =>
    have e1 : matchStarThen jpgExt (c :: cs) =
        (matchLit jpgExt (c :: cs) || (!(c = '/') && matchStarThen jpgExt cs)) := rfl
    rw [e1]
    simp only [Bool.or_eq_true, Bool.and_eq_true, matchLit_iff, ih, Bool.not_eq_true',
      decide_eq_false_iff_not, List.suffix_cons_iff, List.mem_cons]
    constructor
    · rintro (hj | ⟨hc, hs, hn⟩)
      · refine ⟨Or.inl hj, ?_⟩
        have hj2 : c :: cs = '.' :: ['j', 'p', 'g'] := hj.symm.trans rfl
        injection hj2 with h1 h2
        subst h1
        subst h2
        decide
      · exact ⟨Or.inr hs, by
          rintro (h | h)
          · exact hc h.symm
          · exact hn h⟩
    · rintro ⟨hj | hs, hn⟩
      · exact Or.inl hj
      · exact Or.inr ⟨fun h => hn (Or.inl h.symm), hs, fun h => hn (Or.inr h)⟩

/-- Claim C10: a name is selected by the source enumeration exactly when it
matches the literal pattern "*.jpg", that is, when it ends in ".jpg" (case
sensitively) and contains no path separator; so ".jpeg" names, upper-case
".JPG" names and names inside subdirectories are silently excluded, and the
no-images fatal error is decided against exactly this filtered list. -/
theorem c10_glob_selection (w : World) (name : String) (hdirs : dirErrs w = none)
    (sizes : List Int) (hp : parseSizes w.sizesArg = Except.ok sizes)
    (hlen : ¬ sizes.length ≤ 0) (hglob : w.globPatternOk = true) :
    (matchGlob jpgPattern name.data = true ↔
      jpgExt <:+ name.data ∧ ('/' : Char) ∉ name.data) ∧
    matchGlob jpgPattern "a.jpeg".data = false ∧
    matchGlob jpgPattern "A.JPG".data = false ∧
    matchGlob jpgPattern "sub/a.jpg".data = false ∧
    (configPhase w = Except.error Fatal.noImages ↔ sourceMatches w = []) := by
  refine ⟨?_, by decide, by decide, by decide, ?_⟩
  · exact matchStarThen_iff name.data
  · simp only [configPhase, hdirs, hp, hglob, if_neg hlen]
    rw [if_neg (by simp : ¬ (true = false))]
    by_cases hg : (globFiles w).length ≤ 0
    · rw [if_pos hg]
      simp only [true_iff, iff_true]
      have : globFiles w = [] := List.length_eq_zero.1 (Nat.le_zero.1 hg)
      exact List.map_eq_nil_iff.1 this
    · rw [if_neg hg]
      constructor
      · intro hcontra
        exact Except.noConfusion hcontra
      · intro hsm
        exfalso
        apply hg
        rw [show globFiles w = (sourceMatches w).map (fun n => joinPath w.fromPath n) from rfl,
          hsm]
        simp

/-! ### The base-name derivation -/

theorem removeAllSkip_all (old l : List Char) (k : Nat) (h : l.length ≤ k) :
    removeAllSkip old l k = [] := by
  induction l generalizing k with
  | nil => rfl
  | cons c cs ih =>
    cases k with
    | zero => simp at h
    | succ k2 =>
      have e1 : removeAllSkip old (c :: cs) (k2 + 1) = removeAllSkip old cs k2 := rfl
      rw [e1]
      exact ih k2 (by simpa using h)

/-- When the pattern occurs in `pre ++ e` only as the trailing `e`,
removing all its occurrences leaves exactly `pre`. -/
theorem removeAll_tail (e pre : List Char) (he : e ≠ [])
    (h : ∀ i, i < pre.length → e.isPrefixOf ((pre ++ e).drop i) = false) :
    removeAll e (pre ++ e) = pre := by
  induction pre with
  | nil =>
    cases e with
    | nil => exact absurd rfl he
    | cons c cs =>
      show removeAllSkip (c :: cs) ([] ++ c :: cs) 0 = []
      rw [List.nil_append]
      have hpre : (c :: cs).isPrefixOf (c :: cs) = true := by
        rw [List.isPrefixOf_iff_prefix]
      have e1 : removeAllSkip (c :: cs) (c :: cs) 0 =
          if (c :: cs).isPrefixOf (c :: cs) = true ∧ (c :: cs) ≠ [] then
            removeAllSkip (c :: cs) cs ((c :: cs).length - 1)
          else c :: removeAllSkip (c :: cs) cs 0 := rfl
      rw [e1, if_pos ⟨hpre, by simp⟩]
      exact removeAllSkip_all _ _ _ (by simp)
  | cons a pre2 ih =>
    have h0 := h 0 (by simp)
    rw [List.drop_zero, List.cons_append] at h0
    rw [List.cons_append]
    show removeAllSkip e (a :: (pre2 ++ e)) 0 = a :: pre2
    have e1 : removeAllSkip e (a :: (pre2 ++ e)) 0 =
        if e.isPrefixOf (a :: (pre2 ++ e)) = true ∧ e ≠ [] then
          removeAllSkip e (pre2 ++ e) (e.length - 1)
        else a :: removeAllSkip e (pre2 ++ e) 0 := rfl
    rw [e1, if_neg ?hng]
    case hng =>
      rintro ⟨hp, _⟩
      rw [h0] at hp
      exact absurd hp (by simp)
    have h2 : ∀ i, i < pre2.length → e.isPrefixOf ((pre2 ++ e).drop i) = false := by
      intro i hi
      have := h (i + 1) (by simpa using hi)
      rwa [List.cons_append, List.drop_succ_cons] at this
    rw [show removeAllSkip e (pre2 ++ e) 0 = removeAll e (pre2 ++ e) from rfl, ih h2]

/-- Claim C5, counterexample: for the source path "src/a.jpg.jpg" the code
derives the base name "a" (every occurrence of ".jpg" is removed by the
count -1 Replace), not the "a.jpg" that stripping the single trailing
extension, as the claim states, would give. -/
theorem c5_counterexample :
    imageBaseName "src/a.jpg.jpg" = "a" ∧ specBaseName "src/a.jpg.jpg" = "a.jpg" ∧
      imageBaseName "src/a.jpg.jpg" ≠ specBaseName "src/a.jpg.jpg" :=
  ⟨rfl, rfl, by decide⟩

/-- Claim C5 (amended): the code removes every occurrence of the trailing
extension from the file name, so the claim's description is exact when the
extension occurs in the name only as its trailing suffix; under that
condition the derived base name is the stem before the extension, and the
worker's output path is the destination directory joined with that stem
followed by the underscore, the decimal size and ".jpg". -/
theorem c5_base_and_output_path (p : String) (pre : List Char) (toPath : String) (s : Int)
    (he : (fileExt p).data ≠ [])
    (hb : (baseName p).data = pre ++ (fileExt p).data)
    (honce : ∀ i, i < pre.length →
      (fileExt p).data.isPrefixOf ((baseName p).data.drop i) = false) :
    imageBaseName p = String.mk pre ∧
    outputPath toPath (imageBaseName p) s =
      joinPath toPath (String.mk pre ++ "_" ++ Int.repr s ++ ".jpg") := by
  have h1 : imageBaseName p = String.mk pre := by
    unfold imageBaseName
    congr 1
    rw [hb]
    exact removeAll_tail _ _ he (by
      intro i hi
      have := honce i hi
      rwa [hb] at this)
  refine ⟨h1, ?_⟩
  unfold outputPath outputFileName
  rw [h1]

/-- The amended C5 theorem applied at the concrete path "src/b.jpg" with
size 50 and destination "out". -/
theorem c5_base_and_output_path_witness :
    imageBaseName "src/b.jpg" = String.mk ['b'] ∧
    outputPath "out" (imageBaseName "src/b.jpg") 50 =
      joinPath "out" (String.mk ['b'] ++ "_" ++ Int.repr 50 ++ ".jpg") :=
  c5_base_and_output_path "src/b.jpg" ['b'] "out" 50 (by decide) (by decide) (by decide)

/-! ### Decimal renderings and output-file names -/

theorem decimalVal_append (l : List Char) (d : Char) :
    decimalVal (l ++ [d]) = decimalVal l * 10 + (d.toNat - 48) := by
  unfold decimalVal
  rw [List.foldl_append]
  rfl

theorem digitChar_sub (m : Nat) (h : m < 10) : (Nat.digitChar m).toNat - 48 = m := by
  interval_cases m <;> decide

theorem digitChar_ne (m : Nat) (h : m < 10) :
    Nat.digitChar m ≠ '_' ∧ Nat.digitChar m ≠ '/' := by
  interval_cases m <;> exact ⟨by decide, by decide⟩

theorem toDigitsCore_acc (fuel n : Nat) (acc : List Char) :
    Nat.toDigitsCore 10 fuel n acc = Nat.toDigitsCore 10 fuel n [] ++ acc := by
  induction fuel generalizing n acc with
  | zero => rfl
  | succ f ih =>
    simp only [Nat.toDigitsCore]
    by_cases h : n / 10 = 0
    · simp [h]
    · rw [if_neg h, if_neg h, ih (n / 10) (Nat.digitChar (n % 10) :: acc),
        ih (n / 10) [Nat.digitChar (n % 10)]]
      simp

theorem toDigitsCore_val (fuel : Nat) : ∀ n, n < fuel →
    decimalVal (Nat.toDigitsCore 10 fuel n []) = n := by
  induction fuel with
  | zero => intro n h; exact absurd h (Nat.not_lt_zero n)
  | succ f ih =>
    intro n h
    simp only [Nat.toDigitsCore]
    by_cases h0 : n / 10 = 0
    · rw [if_pos h0]
      show decimalVal [Nat.digitChar (n % 10)] = n
      unfold decimalVal
      simp only [List.foldl, Nat.zero_mul, Nat.zero_add]
      rw [digitChar_sub (n % 10) (Nat.mod_lt _ (by norm_num))]
      have := Nat.div_add_mod n 10
      omega
    · rw [if_neg h0, toDigitsCore_acc, decimalVal_append]
      have hpos : 0 < n := by
        rcases Nat.eq_zero_or_pos n with rfl | hp
        · simp at h0
        · exact hp
      have hlt : n / 10 < f := by
        have hd := Nat.div_lt_self hpos (by norm_num : 1 < 10)
        omega
      rw [ih (n / 10) hlt, digitChar_sub (n % 10) (Nat.mod_lt _ (by norm_num))]
      have := Nat.div_add_mod n 10
      omega

theorem toDigitsCore_chars (fuel : Nat) : ∀ n acc (c : Char),
    c ∈ Nat.toDigitsCore 10 fuel n acc → c ∈ acc ∨ ∃ m, m < 10 ∧ c = Nat.digitChar m := by
  induction fuel with
  | zero => exact fun n acc c h => Or.inl h
  | succ f ih =>
    intro n acc c h
    simp only [Nat.toDigitsCore] at h
    by_cases h0 : n / 10 = 0
    · rw [if_pos h0] at h
      rcases List.mem_cons.1 h with h | h
      · exact Or.inr ⟨n % 10, Nat.mod_lt _ (by norm_num), h⟩
      · exact Or.inl h
    · rw [if_neg h0] at h
      rcases ih (n / 10) _ c h with h | h
      · rcases List.mem_cons.1 h with h | h
        · exact Or.inr ⟨n % 10, Nat.mod_lt _ (by norm_num), h⟩
        · exact Or.inl h
      · exact Or.inr h

/-- A non-negative int rendered by %d denotes its own value and contains
neither an underscore nor a separator. -/
theorem intRepr_facts (s : Int) (hs : 0 ≤ s) :
    decimalVal (Int.repr s).data = s.toNat ∧ ('_' : Char) ∉ (Int.repr s).data ∧
      ('/' : Char) ∉ (Int.repr s).data := by
  obtain ⟨n, rfl⟩ := Int.eq_ofNat_of_zero_le hs
  refine ⟨toDigitsCore_val (n + 1) n (Nat.lt_succ_self n), ?_, ?_⟩
  · intro hc
    rcases toDigitsCore_chars (n + 1) n [] '_' hc with h | ⟨m, hm, heq⟩
    · exact absurd h (List.not_mem_nil _)
    · exact (digitChar_ne m hm).1 heq.symm
  · intro hc
    rcases toDigitsCore_chars (n + 1) n [] '/' hc with h | ⟨m, hm, heq⟩
    · exact absurd h (List.not_mem_nil _)
    · exact (digitChar_ne m hm).2 heq.symm

theorem intRepr_inj (s1 s2 : Int) (h1 : 0 ≤ s1) (h2 : 0 ≤ s2)
    (h : Int.repr s1 = Int.repr s2) : s1 = s2 := by
  have e1 := (intRepr_facts s1 h1).1
  have e2 := (intRepr_facts s2 h2).1
  rw [h, e2] at e1
  omega

/-- Two decompositions around an element absent from both prefixes agree. -/
theorem append_cons_inj {α : Type} (a : α) (u1 v1 u2 v2 : List α)
    (h : u1 ++ a :: v1 = u2 ++ a :: v2) (h1 : a ∉ u1) (h2 : a ∉ u2) :
    u1 = u2 ∧ v1 = v2 := by
  induction u1 generalizing u2 with
  | nil =>
    cases u2 with
    | nil => simpa using h
    | cons x u2 =>
      rw [List.nil_append, List.cons_append] at h
      injection h with hx hrest
      exact absurd (hx ▸ List.mem_cons_self x u2) h2
  | cons x u1 ih =>
    cases u2 with
    | nil =>
      rw [List.cons_append, List.nil_append] at h
      injection h with hx hrest
      exact absurd (hx.symm ▸ List.mem_cons_self x u1) h1
    | cons y u2 =>
      rw [List.cons_append, List.cons_append] at h
      injection h with hxy hrest
      obtain ⟨hu, hv⟩ := ih u2 hrest (fun hm => h1 (List.mem_cons_of_mem _ hm))
        (fun hm => h2 (List.mem_cons_of_mem _ hm))
      exact ⟨by rw [hxy, hu], hv⟩

/-- The file name resizeImage builds determines the base name and the size:
the size's decimal rendering and the ".jpg" suffix are underscore-free, so
the last underscore splits the name unambiguously. -/
theorem outputFileName_inj (b1 b2 : String) (s1 s2 : Int) (hs1 : 0 ≤ s1) (hs2 : 0 ≤ s2)
    (h : outputFileName b1 s1 = outputFileName b2 s2) : b1 = b2 ∧ s1 = s2 := by
  unfold outputFileName at h
  have hd := congrArg String.data h
  simp only [String.data_append] at hd
  have hshape : ∀ (b : String) (s : Int),
      b.data ++ "_".data ++ (Int.repr s).data ++ ".jpg".data =
        b.data ++ '_' :: ((Int.repr s).data ++ ".jpg".data) := by
    intro b s
    simp [List.append_assoc]
  rw [hshape b1 s1, hshape b2 s2] at hd
  have rev_shape : ∀ u w : List Char, (u ++ '_' :: w).reverse = w.reverse ++ '_' :: u.reverse := by
    intro u w
    simp
  have hrev := congrArg List.reverse hd
  rw [rev_shape, rev_shape] at hrev
  have hnm1 : ('_' : Char) ∉ ((Int.repr s1).data ++ ".jpg".data).reverse := by
    rw [List.mem_reverse]
    intro hm
    rcases List.mem_append.1 hm with hm | hm
    · exact (intRepr_facts s1 hs1).2.1 hm
    · simp at hm
  have hnm2 : ('_' : Char) ∉ ((Int.repr s2).data ++ ".jpg".data).reverse := by
    rw [List.mem_reverse]
    intro hm
    rcases List.mem_append.1 hm with hm | hm
    · exact (intRepr_facts s2 hs2).2.1 hm
    · simp at hm
  obtain ⟨hw, hb⟩ := append_cons_inj '_' _ _ _ _ hrev hnm1 hnm2
  have hbs : b1 = b2 := by
    have := List.reverse_inj.1 hb
    cases b1
    cases b2
    exact congrArg String.mk this
  refine ⟨hbs, ?_⟩
  have hw2 : (Int.repr s1).data ++ ".jpg".data = (Int.repr s2).data ++ ".jpg".data :=
    List.reverse_inj.1 hw
  have hr : (Int.repr s1).data = (Int.repr s2).data := List.append_cancel_right hw2
  have hrs : Int.repr s1 = Int.repr s2 := by
    cases e1 : Int.repr s1
    cases e2 : Int.repr s2
    rw [e1, e2] at hr
    exact congrArg String.mk hr
  exact intRepr_inj s1 s2 hs1 hs2 hrs

/-! ### The pipeline's output files -/

theorem loadedImages_all (o : TaskOracles) : ∀ (files : List String),
    (∀ p ∈ files, o.decodeOk p = true) →
    loadedImages o files = files.map (fun p => (p, imageBaseName p)) := by
  intro files
  induction files with
  | nil => intro _; rfl
  | cons p fs ih =>
    intro hdec
    have h1 : o.decodeOk p = true := hdec p (List.mem_cons_self _ _)
    have h2 := ih (fun q hq => hdec q (List.mem_cons_of_mem _ hq))
    unfold loadedImages at h2 ⊢
    rw [List.filterMap_cons]
    simp only [h1, if_true]
    rw [h2, List.map_cons]

theorem pipelineNames_all (o : TaskOracles) (toPath : String) (sizes : List Int)
    (hcre : ∀ q, o.createOk q = true) : ∀ (files : List String),
    (∀ p ∈ files, o.decodeOk p = true) →
    pipelineNames o toPath files sizes =
      files.flatMap (fun p => sizes.map (fun s => outputFileName (imageBaseName p) s)) := by
  intro files hdec
  unfold pipelineNames
  rw [loadedImages_all o files hdec, List.flatMap_map]
  congr 1
  funext p
  rw [List.filter_eq_self.mpr (fun s _ => hcre _)]

theorem flatMap_names_length (sizes : List Int) : ∀ (bases : List String),
    (bases.flatMap (fun b => sizes.map (fun s => outputFileName b s))).length =
      bases.length * sizes.length := by
  intro bases
  induction bases with
  | nil => simp
  | cons b bs ih =>
    simp only [List.flatMap_cons, List.length_append, List.length_map, ih, List.length_cons,
      Nat.add_mul, Nat.one_mul]
    omega

theorem flatMap_names_nodup (sizes : List Int) (hnn : ∀ s ∈ sizes, 0 ≤ s)
    (hs : sizes.Nodup) : ∀ (bases : List String), bases.Nodup →
    (bases.flatMap (fun b => sizes.map (fun s => outputFileName b s))).Nodup := by
  intro bases
  induction bases with
  | nil => intro _; exact List.nodup_nil
  | cons b bs ih =>
    intro hb
    obtain ⟨hb1, hb2⟩ := List.nodup_cons.1 hb
    rw [List.flatMap_cons, List.nodup_append]
    refine ⟨?_, ih hb2, ?_⟩
    · refine List.Nodup.map_on ?_ hs
      intro x hx y hy hxy
      exact (outputFileName_inj b b x y (hnn x hx) (hnn y hy) hxy).2
    · intro a ha hmem2
      obtain ⟨s1, hs1, rfl⟩ := List.mem_map.1 ha
      obtain ⟨b2, hb2mem, hmem3⟩ := List.mem_flatMap.1 hmem2
      obtain ⟨s2, hs2, heq⟩ := List.mem_map.1 hmem3
      have hbb := (outputFileName_inj b2 b s2 s1 (hnn s2 hs2) (hnn s1 hs1) heq).1
      exact hb1 (hbb ▸ hb2mem)

/-- Claim C1, counterexample: the count |F| times |S| fails on the parser's
actual output.  The valid size list "50,50" gives S = [50, 50], and for one
source file both tasks write the same path, so exactly one output file
exists where the claim demands 1 times 2; likewise the distinct sources
"a.jpg" and "a.jpg.jpg" derive the same base name "a", so with one size a
single file exists where the claim demands 2 times 1. -/
theorem c1_counterexample :
    parseSizes "50,50" = Except.ok [50, 50] ∧
    (pipelineNames oraAllOk "out" ["a.jpg"] [50, 50]).dedup.length = 1 ∧
    (1 : Nat) ≠ 1 * 2 ∧
    (pipelineNames oraAllOk "out" ["a.jpg", "a.jpg.jpg"] [50]).dedup.length = 1 ∧
    (1 : Nat) ≠ 2 * 1 :=
  ⟨rfl, by decide, by decide, by decide, by decide⟩

/-- Claim C1 (amended): when the sizes are pairwise distinct, the sources'
derived base names are pairwise distinct, every source decodes and every
output-file creation succeeds, the pipeline leaves exactly |F| times |S|
distinct files in the destination directory, one named base_size.jpg for
each (base, size) pair. -/
theorem c1_output_files (o : TaskOracles) (toPath : String) (files : List String)
    (sizes : List Int)
    (hdec : ∀ p ∈ files, o.decodeOk p = true)
    (hcre : ∀ q, o.createOk q = true)
    (hnn : ∀ s ∈ sizes, 0 ≤ s)
    (hsz : sizes.Nodup)
    (hbase : (files.map imageBaseName).Nodup) :
    (pipelineNames o toPath files sizes).Nodup ∧
    (pipelineNames o toPath files sizes).length = files.length * sizes.length ∧
    (∀ p ∈ files, ∀ s ∈ sizes,
      outputFileName (imageBaseName p) s ∈ pipelineNames o toPath files sizes) := by
  have e := pipelineNames_all o toPath sizes hcre files hdec
  have e2 : files.flatMap (fun p => sizes.map (fun s => outputFileName (imageBaseName p) s)) =
      (files.map imageBaseName).flatMap (fun b => sizes.map (fun s => outputFileName b s)) := by
    rw [List.flatMap_map]
  rw [e, e2]
  refine ⟨flatMap_names_nodup sizes hnn hsz _ hbase, ?_, ?_⟩
  · rw [flatMap_names_length, List.length_map]
  · intro p hp s hs2
    exact List.mem_flatMap.2 ⟨imageBaseName p, List.mem_map_of_mem _ hp,
      List.mem_map_of_mem _ hs2⟩

/-- The amended C1 theorem applied at two sources and two sizes, the spec's
own concrete scenario. -/
theorem c1_output_files_witness :
    (pipelineNames oraAllOk "out" ["a.jpg", "b.jpg"] [50, 100]).Nodup ∧
    (pipelineNames oraAllOk "out" ["a.jpg", "b.jpg"] [50, 100]).length = 2 * 2 ∧
    (∀ p ∈ ["a.jpg", "b.jpg"], ∀ s ∈ ([50, 100] : List Int),
      outputFileName (imageBaseName p) s ∈
        pipelineNames oraAllOk "out" ["a.jpg", "b.jpg"] [50, 100]) :=
  c1_output_files oraAllOk "out" ["a.jpg", "b.jpg"] [50, 100] (by decide) (fun q => rfl)
    (by decide) (by decide) (by decide)

/-! ### The concurrent pipeline's temporal guarantees -/

theorem pipeInv_start (nf ns : Nat) (dOk : Fin nf → Bool) :
    PipeInv dOk (startState nf ns) := by
  refine ⟨?_, ?_, ?_, ?_⟩
  · intro i hi
    exact absurd hi (List.not_mem_nil _)
  · intro i hi
    simp [startState] at hi
  · intro hc
    simp [startState] at hc
  · intro hf
    simp [startState] at hf

theorem pipeInv_step {nf ns : Nat} {dOk : Fin nf → Bool} {s t : PipeState nf ns}
    (hInv : PipeInv dOk s) (hstep : PipeStep dOk s t) : PipeInv dOk t := by
  obtain ⟨hchan, hspawn, hclosed, hfinal⟩ := hInv
  cases hstep with
  | emit i h1 h2 =>
    refine ⟨?_, ?_, ?_, ?_⟩
    · intro k hk
      rcases List.mem_append.1 hk with hk | hk
      · obtain ⟨ha, hb⟩ := hchan k hk
        refine ⟨?_, hb⟩
        by_cases hki : k = i
        · subst hki
          simp only [Function.update_same]
          exact fun hx => LoadPhase.noConfusion hx
        · simp only [Function.update_noteq hki]
          exact ha
      · have hk2 : k = i := by simpa using hk
        subst hk2
        refine ⟨?_, h2⟩
        simp only [Function.update_same]
        exact fun hx => LoadPhase.noConfusion hx
    · intro k hk
      obtain ⟨ha, hb⟩ := hspawn k hk
      refine ⟨?_, hb⟩
      by_cases hki : k = i
      · subst hki
        simp only [Function.update_same]
        exact fun hx => LoadPhase.noConfusion hx
      · simp only [Function.update_noteq hki]
        exact ha
    · intro hc
      exfalso
      have hrep := hclosed hc i
      rw [h1] at hrep
      exact LoadPhase.noConfusion hrep
    · intro hf
      exfalso
      have hrep := hclosed (hfinal hf).1 i
      rw [h1] at hrep
      exact LoadPhase.noConfusion hrep
  | reportLoaded i h1 =>
    refine ⟨?_, ?_, ?_, ?_⟩
    · intro k hk
      obtain ⟨ha, hb⟩ := hchan k hk
      refine ⟨?_, hb⟩
      by_cases hki : k = i
      · subst hki
        simp only [Function.update_same]
        exact fun hx => LoadPhase.noConfusion hx
      · simp only [Function.update_noteq hki]
        exact ha
    · intro k hk
      obtain ⟨ha, hb⟩ := hspawn k hk
      refine ⟨?_, hb⟩
      by_cases hki : k = i
      · subst hki
        simp only [Function.update_same]
        exact fun hx => LoadPhase.noConfusion hx
      · simp only [Function.update_noteq hki]
        exact ha
    · intro hc
      exfalso
      have hrep := hclosed hc i
      rw [h1] at hrep
      exact LoadPhase.noConfusion hrep
    · intro hf
      exfalso
      have hrep := hclosed (hfinal hf).1 i
      rw [h1] at hrep
      exact LoadPhase.noConfusion hrep
  | reportFailed i h1 h2 =>
    refine ⟨?_, ?_, ?_, ?_⟩
    · intro k hk
      obtain ⟨ha, hb⟩ := hchan k hk
      refine ⟨?_, hb⟩
      by_cases hki : k = i
      · subst hki
        simp only [Function.update_same]
        exact fun hx => LoadPhase.noConfusion hx
      · simp only [Function.update_noteq hki]
        exact ha
    · intro k hk
      obtain ⟨ha, hb⟩ := hspawn k hk
      refine ⟨?_, hb⟩
      by_cases hki : k = i
      · subst hki
        simp only [Function.update_same]
        exact fun hx => LoadPhase.noConfusion hx
      · simp only [Function.update_noteq hki]
        exact ha
    · intro hc
      exfalso
      have hrep := hclosed hc i
      rw [h1] at hrep
      exact LoadPhase.noConfusion hrep
    · intro hf
      exfalso
      have hrep := hclosed (hfinal hf).1 i
      rw [h1] at hrep
      exact LoadPhase.noConfusion hrep
  | closeChan h1 h2 =>
    refine ⟨hchan, hspawn, ?_, ?_⟩
    · intro _
      exact h1
    · intro hf
      exact ⟨rfl, (hfinal hf).2.1, (hfinal hf).2.2⟩
  | dispatch i rest h1 =>
    refine ⟨?_, ?_, ?_, ?_⟩
    · intro k hk
      exact hchan k (by rw [h1]; exact List.mem_cons_of_mem _ hk)
    · intro k hk
      by_cases hki : k = i
      · subst hki
        exact hchan k (by rw [h1]; exact List.mem_cons_self _ _)
      · simp only [Function.update_noteq hki] at hk
        exact hspawn k hk
    · intro hc
      exact hclosed hc
    · intro hf
      exfalso
      have hch := (hfinal hf).2.1
      rw [h1] at hch
      exact List.noConfusion hch
  | taskFinish i j h1 h2 =>
    refine ⟨hchan, hspawn, hclosed, ?_⟩
    intro hf
    obtain ⟨ha, hb, hc⟩ := hfinal hf
    refine ⟨ha, hb, ?_⟩
    intro k l hk
    show (if k = i then Function.update (s.taskDone i) j true else s.taskDone k) l = true
    by_cases hki : k = i
    · subst hki
      rw [if_pos rfl]
      by_cases hlj : l = j
      · subst hlj
        simp only [Function.update_same]
      · simp only [Function.update_noteq hlj]
        exact hc k l hk
    · rw [if_neg hki]
      exact hc k l hk
  | finish h1 h2 h3 h4 =>
    refine ⟨hchan, hspawn, hclosed, ?_⟩
    intro _
    exact ⟨h1, h2, h3⟩

theorem pipeInv_reachable {nf ns : Nat} (dOk : Fin nf → Bool) (s : PipeState nf ns)
    (h : Reachable dOk s) : PipeInv dOk s := by
  unfold Reachable at h
  induction h with
  | refl => exact pipeInv_start nf ns dOk
  | tail h1 h2 ih => exact pipeInv_step ih h2

/-- Claim C2: in every reachable pipeline state, once the final allFinished
signal has been sent every load goroutine has sent its finished signal and
every spawned resize task has sent its finished signal; resize tasks are
spawned for an image only after that image's decode completed successfully;
and a failed load yields no resize tasks yet its finished signal still
participates in the accounting, so the final signal also requires it to
have reported. -/
theorem c2_pipeline_join (nf ns : Nat) (dOk : Fin nf → Bool) (s : PipeState nf ns)
    (h : Reachable dOk s) :
    (s.final = true →
      (∀ i, s.load i = LoadPhase.reported) ∧
      (∀ i j, s.spawned i = true → s.taskDone i j = true)) ∧
    (∀ i, s.spawned i = true → s.load i ≠ LoadPhase.pending ∧ dOk i = true) ∧
    (∀ i, dOk i = false →
      s.spawned i = false ∧ (s.final = true → s.load i = LoadPhase.reported)) := by
  obtain ⟨hchan, hspawn, hclosed, hfinal⟩ := pipeInv_reachable dOk s h
  refine ⟨?_, hspawn, ?_⟩
  · intro hf
    exact ⟨hclosed (hfinal hf).1, (hfinal hf).2.2⟩
  · intro i hdo
    constructor
    · cases hb : s.spawned i with
      | false => rfl
      | true =>
        have hd := (hspawn i hb).2
        rw [hdo] at hd
        exact Bool.noConfusion hd
    · intro hf
      exact hclosed (hfinal hf).1 i

/-- The seven-step schedule of the demonstration run is a run of the
pipeline's transition system. -/
theorem demoReachable : Reachable demoOk demo7 := by
  have s1 : PipeStep demoOk demo0 demo1 := PipeStep.emit demo0 0 rfl (by decide)
  have s2 : PipeStep demoOk demo1 demo2 := PipeStep.reportLoaded demo1 0 (by decide)
  have s3 : PipeStep demoOk demo2 demo3 := PipeStep.reportFailed demo2 1 (by decide) (by decide)
  have s4 : PipeStep demoOk demo3 demo4 := PipeStep.closeChan demo3 (by decide) rfl
  have s5 : PipeStep demoOk demo4 demo5 := PipeStep.dispatch demo4 0 [] rfl
  have s6 : PipeStep demoOk demo5 demo6 := PipeStep.taskFinish demo5 0 0 (by decide) (by decide)
  have s7 : PipeStep demoOk demo6 demo7 := PipeStep.finish demo6 rfl rfl (by decide) rfl
  exact Relation.ReflTransGen.tail (Relation.ReflTransGen.tail (Relation.ReflTransGen.tail
    (Relation.ReflTransGen.tail (Relation.ReflTransGen.tail (Relation.ReflTransGen.tail
      (Relation.ReflTransGen.tail Relation.ReflTransGen.refl s1) s2) s3) s4) s5) s6) s7

/-- The C2 theorem applied at the final state of the demonstration run with
one decoded and one failed source. -/
theorem c2_pipeline_join_witness :
    (demo7.final = true →
      (∀ i, demo7.load i = LoadPhase.reported) ∧
      (∀ i j, demo7.spawned i = true → demo7.taskDone i j = true)) ∧
    (∀ i, demo7.spawned i = true → demo7.load i ≠ LoadPhase.pending ∧ demoOk i = true) ∧
    (∀ i, demoOk i = false →
      demo7.spawned i = false ∧ (demo7.final = true → demo7.load i = LoadPhase.reported)) :=
  c2_pipeline_join 2 1 demoOk demo7 demoReachable

/-- The C10 theorem applied at the concrete world whose source tree holds
only "a.jpeg", "A.JPG" and "sub/a.jpg", with "b.jpg" as the probe name. -/
theorem c10_glob_selection_witness :
    ((matchGlob jpgPattern "b.jpg".data = true ↔
        jpgExt <:+ "b.jpg".data ∧ ('/' : Char) ∉ "b.jpg".data) ∧
      matchGlob jpgPattern "a.jpeg".data = false ∧
      matchGlob jpgPattern "A.JPG".data = false ∧
      matchGlob jpgPattern "sub/a.jpg".data = false ∧
      (configPhase wNoJpg = Except.error Fatal.noImages ↔ sourceMatches wNoJpg = [])) :=
  c10_glob_selection wNoJpg "b.jpg" (by decide) [50, 100] rfl (by decide) rfl

end ResizeImages
